import Mathlib

/-!  A shallow embedding of the surgical source dumper (`file-dump.py`):
comment stripping, block extraction, include resolution, breadth-first
dependency traversal, fixed-point symbol reachability and selective
export, together with theorems checking the specification's claims.

Scanning loops that advance a cursor through the text are written with
an explicit step budget (`gas`), always called with a budget larger
than the number of characters, so that every run is a complete scan;
this keeps all definitions kernel-computable.  -/

namespace FileDump

/-- ASCII word character, the model of the identifier character class
used by every pattern of the source. -/
def isWordChar (c : Char) : Bool := c.isAlpha || c.isDigit || c = '_'

/-- ASCII whitespace, the model of the whitespace character class. -/
def isSpaceChar (c : Char) : Bool :=
  c = ' ' || c = '\t' || c = '\n' || c = '\r' || c = '\x0b' || c = '\x0c'

/-- Length of the maximal prefix run of characters satisfying `P`. -/
def runLength (P : Char → Bool) : List Char → Nat
  | [] => 0
  | c :: r => if P c then runLength P r + 1 else 0

/-- Scans a quoted literal after its opening quote `q`: consumes escape
pairs and ordinary characters up to the closing quote and returns the
consumed text (closing quote included) plus the remainder; fails when
the literal is unterminated, as the literal alternative of the pattern
then fails to match. -/
def scanLit (q : Char) : List Char → Option (List Char × List Char)
  | [] => none
  | c :: rest =>
    if c = q then some ([q], rest)
    else if c = '\\' then
      match rest with
      | [] => none
      | d :: rest2 =>
        match scanLit q rest2 with
        | some (lit, r) => some (c :: d :: lit, r)
        | none => none
    else
      match scanLit q rest with
      | some (lit, r) => some (c :: lit, r)
      | none => none

/-- After a block-comment opener, the remainder following the first
closing marker; fails when the comment is unterminated. -/
def findBlockEnd : List Char → Option (List Char)
  | [] => none
  | '*' :: '/' :: rest => some rest
  | _ :: rest => findBlockEnd rest

/-- The comment-stripping substitution of `strip_comments`, on a step
budget: scanning left to right, a line comment (up to the next
newline) or a block comment becomes a single space, a quoted literal
is copied verbatim, and a position where no alternative matches is
copied unchanged. -/
def stripGo : Nat → List Char → List Char
  | 0, _ => []
  | _ + 1, [] => []
  | gas + 1, c :: rest =>
    if c = '/' then
      match rest with
      | '/' :: rest2 => ' ' :: stripGo gas (rest2.dropWhile (fun d => d ≠ '\n'))
      | '*' :: rest2 =>
        match findBlockEnd rest2 with
        | some rest3 => ' ' :: stripGo gas rest3
        | none => '/' :: stripGo gas ('*' :: rest2)
      | other => '/' :: stripGo gas other
    else if c = '\x27' then
      match scanLit '\x27' rest with
      | some (lit, r) => c :: (lit ++ stripGo gas r)
      | none => c :: stripGo gas rest
    else if c = '\x22' then
      match scanLit '\x22' rest with
      | some (lit, r) => c :: (lit ++ stripGo gas r)
      | none => c :: stripGo gas rest
    else c :: stripGo gas rest

/-- The comment-stripping pass over a character list; every step of
`stripGo` consumes at least one character, so the budget suffices. -/
def stripAux (l : List Char) : List Char := stripGo l.length l

/-- `strip_comments`: removes C-style comments while preserving strings. -/
def strip_comments (code : String) : String := String.mk (stripAux code.data)

/-- Splits a character list at newline characters; the model of the
line splitting used by the source. -/
def splitOnNl : List Char → List (List Char)
  | [] => [[]]
  | '\n' :: rest => [] :: splitOnNl rest
  | c :: rest =>
    match splitOnNl rest with
    | [] => [[c]]
    | line :: more => (c :: line) :: more

/-- Removes trailing whitespace, modelling `str.rstrip`. -/
def rstripL (l : List Char) : List Char := (l.reverse.dropWhile isSpaceChar).reverse

/-- Removes leading and trailing whitespace, modelling `str.strip`. -/
def stripL (l : List Char) : List Char := rstripL (l.dropWhile isSpaceChar)

/-- Boolean prefix test for character lists. -/
def startsWithL : List Char → List Char → Bool
  | [], _ => true
  | _ :: _, [] => false
  | p :: ps, c :: cs => p = c && startsWithL ps cs

/-- Index of the last newline in a list, if any. -/
def lastIdxNl : List Char → Option Nat
  | [] => none
  | c :: r =>
    match lastIdxNl r with
    | some k => some (k + 1)
    | none => if c = '\n' then some 0 else none

/-- The blank-line substitution of `clean_whitespace`, on a step
budget: a newline whose following whitespace run contains further
newlines is collapsed, together with the run up to its last newline,
into a single newline. -/
def subBlankGo : Nat → List Char → List Char
  | 0, _ => []
  | _ + 1, [] => []
  | gas + 1, c :: rest =>
    if c = '\n' then
      match lastIdxNl (rest.takeWhile isSpaceChar) with
      | some k => '\n' :: subBlankGo gas (rest.drop (k + 1))
      | none => '\n' :: subBlankGo gas rest
    else c :: subBlankGo gas rest

/-- The blank-line substitution pass; every step consumes at least one
character, so the budget suffices. -/
def subBlank (l : List Char) : List Char := subBlankGo l.length l

/-- `clean_whitespace`: collapses blank lines, then keeps only the
nonblank lines with trailing whitespace removed, joined by newlines. -/
def clean_whitespace (code : String) : String :=
  let collapsed := subBlank code.data
  let lines := (splitOnNl collapsed).filter (fun ln => !(stripL ln).isEmpty)
  String.intercalate "\n" (lines.map (fun ln => String.mk (rstripL ln)))

/-- The character class of the leading run of the function pattern:
word characters, whitespace or asterisks. -/
def isClass1 (c : Char) : Bool := isWordChar c || isSpaceChar c || c = '*'

/-- The deterministic tail of the function-signature pattern after a
chosen length `a` of its leading run: mandatory whitespace, the
captured name, optional whitespace, the argument list up to the first
closing parenthesis, optional whitespace and the opening brace.  The
greedy runs are committed since no shorter choice can match here. -/
def funcTail (l : List Char) (a : Nat) : Option (Nat × List Char) :=
  let l1 := l.drop a
  let b := runLength isSpaceChar l1
  if b = 0 then none
  else
    let l2 := l1.drop b
    let c := runLength isWordChar l2
    if c = 0 then none
    else
      let name := l2.take c
      let l3 := l2.drop c
      let d := runLength isSpaceChar l3
      match l3.drop d with
      | '(' :: l5 =>
        let e := runLength (fun ch => ch != ')') l5
        match l5.drop e with
        | ')' :: l6 =>
          let f := runLength isSpaceChar l6
          match l6.drop f with
          | '\x7b' :: _ => some (a + b + c + d + 1 + e + 1 + f + 1, name)
          | _ => none
        | _ => none
      | _ => none

/-- Backtracking over the greedy leading run of the function pattern:
lengths are tried from the longest run downwards and the first success
wins, as the backtracking engine does. -/
def funcFrom (l : List Char) : Nat → Option (Nat × List Char)
  | 0 => none
  | a + 1 =>
    match funcTail l (a + 1) with
    | some res => some res
    | none => funcFrom l a

/-- Match of the function-definition pattern `C_FUNC_DEF` at one
position; the multi-line anchor is checked by the caller. -/
def matchFunc (l : List Char) : Option (Nat × List Char) :=
  funcFrom l (runLength isClass1 l)

/-- Whether position `p` is at a line start, the multi-line anchor. -/
def lineStart (s : List Char) (p : Nat) : Bool :=
  p == 0 || s.get? (p - 1) == some '\n'

/-- All matches of the function pattern, as start position and captured
name, on a step budget: every line-start position is tried in order
and the scan resumes past each match; a failed position advances by
one character. -/
def funcMatchesGo (s : List Char) : Nat → Nat → List (Nat × List Char)
  | 0, _ => []
  | gas + 1, p =>
    if s.length ≤ p then []
    else
      if lineStart s p then
        match matchFunc (s.drop p) with
        | some (n, name) => (p, name) :: funcMatchesGo s gas (p + n)
        | none => funcMatchesGo s gas (p + 1)
      else funcMatchesGo s gas (p + 1)

/-- All matches of the function pattern over a whole text; the cursor
advances at every step, so the budget suffices. -/
def funcMatches (s : List Char) : List (Nat × List Char) :=
  funcMatchesGo s (s.length + 1) 0

/-- The brace-balance scan of `get_blocks`: the counter goes up at each
opening brace and down at each closing one, and the span ends just
after the brace that returns the counter to zero; an exhausted input
yields no span. -/
def braceScan : List Char → Int → Option (List Char)
  | [], _ => none
  | c :: rest, count =>
    if c = '\x7b' then
      match braceScan rest (count + 1) with
      | some span => some (c :: span)
      | none => none
    else if c = '\x7d' then
      if count - 1 = 0 then some [c]
      else
        match braceScan rest (count - 1) with
        | some span => some (c :: span)
        | none => none
    else
      match braceScan rest count with
      | some span => some (c :: span)
      | none => none

/-- Insertion into the function map: a later definition with the same
name overwrites the earlier entry in place, as dictionary assignment
does. -/
def insertFunc (m : List (String × String)) (name body : String) :
    List (String × String) :=
  if m.any (fun nb => nb.1 == name) then
    m.map (fun nb => if nb.1 = name then (name, body) else nb)
  else m ++ [(name, body)]

/-- The deterministic tail checked after each candidate closing brace
of a type declaration: optional whitespace, an optional alias
identifier, optional whitespace and the terminating semicolon. -/
def typeTailLen (l : List Char) : Option Nat :=
  let w1 := runLength isSpaceChar l
  let w2 := runLength isWordChar (l.drop w1)
  let w3 := runLength isSpaceChar (l.drop (w1 + w2))
  match l.drop (w1 + w2 + w3) with
  | ';' :: _ => some (w1 + w2 + w3 + 1)
  | _ => none

/-- The reluctant body scan of the type pattern: characters are
consumed one at a time, at each closing brace the tail is tried, and
the first success ends the match. -/
def scanTypeBody : List Char → Option Nat
  | [] => none
  | c :: rest =>
    if c = '\x7d' then
      match typeTailLen rest with
      | some t => some (1 + t)
      | none =>
        match scanTypeBody rest with
        | some n => some (n + 1)
        | none => none
    else
      match scanTypeBody rest with
      | some n => some (n + 1)
      | none => none

/-- Matches one of the three aggregate keywords, returning its length. -/
def kwLen (l : List Char) : Option Nat :=
  if startsWithL "struct".data l then some 6
  else if startsWithL "enum".data l then some 4
  else if startsWithL "union".data l then some 5
  else none

/-- The part of the type pattern after the optional `typedef` prefix:
keyword, optional whitespace, optional tag, optional whitespace, the
opening brace, then the reluctant body scan. -/
def typeAfterPrefix (l : List Char) : Option Nat :=
  match kwLen l with
  | none => none
  | some k =>
    let s1 := runLength isSpaceChar (l.drop k)
    let tg := runLength isWordChar (l.drop (k + s1))
    let s2 := runLength isSpaceChar (l.drop (k + s1 + tg))
    match l.drop (k + s1 + tg + s2) with
    | '\x7b' :: body =>
      match scanTypeBody body with
      | some n => some (k + s1 + tg + s2 + 1 + n)
      | none => none
    | _ => none

/-- Match of `C_TYPE_DEF` at one position: the optional greedy
`typedef` prefix is tried first, falling back to the bare keyword. -/
def matchType (l : List Char) : Option Nat :=
  if startsWithL "typedef".data l then
    let sp := runLength isSpaceChar (l.drop 7)
    if sp = 0 then typeAfterPrefix l
    else
      match typeAfterPrefix (l.drop (7 + sp)) with
      | some n => some (7 + sp + n)
      | none => typeAfterPrefix l
  else typeAfterPrefix l

/-- The deterministic tail of the simple-typedef pattern after its
backtracked run: mandatory whitespace, the alias identifier, optional
whitespace and the semicolon. -/
def simpleTail (l : List Char) : Option Nat :=
  let b := runLength isSpaceChar l
  if b = 0 then none
  else
    let c := runLength isWordChar (l.drop b)
    if c = 0 then none
    else
      let d := runLength isSpaceChar (l.drop (b + c))
      match l.drop (b + c + d) with
      | ';' :: _ => some (b + c + d + 1)
      | _ => none

/-- Countdown over the length of the base-type run of the
simple-typedef pattern, longest first. -/
def simpleFrom (l : List Char) : Nat → Option Nat
  | 0 => none
  | a + 1 =>
    match simpleTail (l.drop (a + 1)) with
    | some n => some (a + 1 + n)
    | none => simpleFrom l a

/-- Match of `C_SIMPLE_TYPEDEF` at one position: the keyword, at least
one whitespace character, then a backtracked split of the following
run into the base type, whitespace, the alias and the semicolon. -/
def matchSimple (l : List Char) : Option Nat :=
  if startsWithL "typedef".data l then
    match l.drop 7 with
    | c :: _ =>
      if isSpaceChar c then
        match simpleFrom (l.drop 8) (runLength isClass1 (l.drop 8)) with
        | some n => some (8 + n)
        | none => none
      else none
    | [] => none
  else none

/-- All matches of `C_TYPE_DEF`, as start position and length, on a
step budget. -/
def typeMatchesGo (s : List Char) : Nat → Nat → List (Nat × Nat)
  | 0, _ => []
  | gas + 1, p =>
    if s.length ≤ p then []
    else
      if lineStart s p then
        match matchType (s.drop p) with
        | some n => (p, n) :: typeMatchesGo s gas (p + n)
        | none => typeMatchesGo s gas (p + 1)
      else typeMatchesGo s gas (p + 1)

/-- All matches of `C_TYPE_DEF` over a whole text. -/
def typeMatches (s : List Char) : List (Nat × Nat) := typeMatchesGo s (s.length + 1) 0

/-- All matches of `C_SIMPLE_TYPEDEF`, as start position and length,
on a step budget. -/
def simpleMatchesGo (s : List Char) : Nat → Nat → List (Nat × Nat)
  | 0, _ => []
  | gas + 1, p =>
    if s.length ≤ p then []
    else
      if lineStart s p then
        match matchSimple (s.drop p) with
        | some n => (p, n) :: simpleMatchesGo s gas (p + n)
        | none => simpleMatchesGo s gas (p + 1)
      else simpleMatchesGo s gas (p + 1)

/-- All matches of `C_SIMPLE_TYPEDEF` over a whole text. -/
def simpleMatches (s : List Char) : List (Nat × Nat) :=
  simpleMatchesGo s (s.length + 1) 0

/-- Identifier tokens of `find_usages`, on a step budget: a maximal
word-character run qualifies when it does not start with a digit; a
digit-led run yields nothing, since no word boundary falls inside a
run. -/
def tokensGo : Nat → List Char → List (List Char)
  | 0, _ => []
  | _ + 1, [] => []
  | gas + 1, c :: rest =>
    if isWordChar c then
      let run := c :: rest.takeWhile isWordChar
      let after := rest.dropWhile isWordChar
      if c.isDigit then tokensGo gas after else run :: tokensGo gas after
    else tokensGo gas rest

/-- All identifier tokens of a character list. -/
def tokensAux (l : List Char) : List (List Char) := tokensGo l.length l

/-- `CParser.find_usages`: the set of potential symbols in a string. -/
def find_usages (content : String) : Finset String :=
  ((tokensAux content.data).map String.mk).toFinset

/-- The per-file block record produced by `CParser.get_blocks`; the
`is_entry` flag is absent (false) until the traversal sets it. -/
structure Blocks where
  headers : List String
  types : List String
  functions : List (String × String)
  defines : List String
  is_entry : Bool
deriving DecidableEq

/-- `CParser.get_blocks`: strips comments, collects include and define
lines, type spans from both type patterns, and the named function
bodies captured by the brace-balance scan. -/
def get_blocks (content : String) : Blocks :=
  let stripped := stripAux content.data
  let lines := (splitOnNl stripped).map stripL
  { headers := (lines.filter (fun ln => startsWithL "#include".data ln)).map String.mk
    defines := (lines.filter (fun ln => startsWithL "#define".data ln)).map String.mk
    types := ((typeMatches stripped).map
             (fun pn => String.mk ((stripped.drop pn.1).take pn.2)))
          ++ ((simpleMatches stripped).map
             (fun pn => String.mk ((stripped.drop pn.1).take pn.2)))
    functions := (funcMatches stripped).foldl (fun m pn =>
        match braceScan (stripped.drop pn.1) 0 with
        | some span => insertFunc m (String.mk pn.2) (String.mk span)
        | none => m) []
    is_entry := false }

/-- The final path component, after the last separator. -/
def lastComponent (s : List Char) : List Char :=
  (s.reverse.takeWhile (fun c => c ≠ '/')).reverse

/-- The stem of a path string: the final component without its last
suffix, where a leading or trailing dot does not count as a suffix
separator. -/
def pathStem (s : String) : String :=
  let name := lastComponent s.data
  let k := runLength (fun c => c != '.') name.reverse
  if k < name.length then
    let i := name.length - 1 - k
    if 0 < i ∧ i < name.length - 1 then String.mk (name.take i)
    else String.mk name
  else String.mk name

/-- The filesystem collaborators of the pipeline: path algebra, path
canonicalisation (which may fail), file reading, and the path order
used for the sorted export. -/
structure Env (Path : Type) where
  parent : Path → Path
  join : Path → String → Path
  pathOfString : String → Path
  resolve : Path → Option Path
  reads : Path → String
  pathLe : Path → Path → Bool

/-- The candidate list of `resolve_path`, in order: the include string
relative to the including file's directory, the include string's stem
with `.c` and with `.cpp` in that same directory, then the include
string under the top-level `include`, `src` and `lib` directories. -/
def candidatesList {Path : Type} (env : Env Path) (base_file : Path)
    (import_str : String) : List Path :=
  [ env.join (env.parent base_file) import_str,
    env.join (env.parent base_file) (pathStem import_str ++ ".c"),
    env.join (env.parent base_file) (pathStem import_str ++ ".cpp"),
    env.join (env.pathOfString "include") import_str,
    env.join (env.pathOfString "src") import_str,
    env.join (env.pathOfString "lib") import_str ]

/-- The candidate loop of `resolve_path`: a candidate that fails to
canonicalise is skipped, a canonicalised candidate is returned when it
is a known file, and otherwise the loop continues. -/
def resolveLoop {Path : Type} [DecidableEq Path] (env : Env Path)
    (all_files : Finset Path) : List Path → Option Path
  | [] => none
  | c :: rest =>
    match env.resolve c with
    | some resolved =>
      if resolved ∈ all_files then some resolved
      else resolveLoop env all_files rest
    | none => resolveLoop env all_files rest

/-- `resolve_path`: finds the physical file for an include string. -/
def resolve_path {Path : Type} [DecidableEq Path] (env : Env Path) (base_file : Path)
    (import_str : String) (all_files : Finset Path) : Option Path :=
  resolveLoop env all_files (candidatesList env base_file import_str)

/-- One attempt of the include pattern at the current position: the
directive text, optional whitespace, an opening delimiter, a nonempty
capture of characters other than the two closing delimiters, and one
closing delimiter.  Returns the capture and the total match length. -/
def matchInclude (l : List Char) : Option (List Char × Nat) :=
  if startsWithL "#include".data l then
    let l1 := l.drop 8
    let sp := runLength isSpaceChar l1
    match l1.drop sp with
    | d :: l2 =>
      if d = '<' ∨ d = '\x22' then
        let cap := runLength (fun ch => ch != '>' && ch != '\x22') l2
        if cap = 0 then none
        else
          let e := (l2.drop cap).headD ' '
          if e = '>' ∨ e = '\x22' then some (l2.take cap, 8 + sp + 1 + cap + 1)
          else none
      else none
    | [] => none
  else none

/-- All captures of the include pattern, on a step budget, scanning
every position in order and resuming past each match. -/
def includesGo (s : List Char) : Nat → Nat → List (List Char)
  | 0, _ => []
  | gas + 1, p =>
    if s.length ≤ p then []
    else
      match matchInclude (s.drop p) with
      | some (cap, n) => cap :: includesGo s gas (p + n)
      | none => includesGo s gas (p + 1)

/-- The include extraction of the traversal: the include pattern run
over the comment-stripped raw text. -/
def findIncludes (raw : String) : List String :=
  let stripped := stripAux raw.data
  (includesGo stripped (stripped.length + 1) 0).map String.mk

/-- The mutable state of the dependency-collection loop. -/
structure TravState (Path : Type) where
  processed : List (Path × Blocks)
  used : Finset String
  queue : List (Path × Nat)
  visited : Finset Path

/-- The dependency-collection loop, bounded by `fuel` iterations: the
front queue entry is skipped when already visited or deeper than
`max_depth`; otherwise its file is read and extracted, recorded in
order, the entry file additionally seeding the used-symbol set and the
`is_entry` flag, and every resolved, unvisited include of the file is
appended to the queue one level deeper. -/
def travRun {Path : Type} [DecidableEq Path] (env : Env Path) (all_files : Finset Path)
    (entry : Path) (max_depth : Int) : Nat → TravState Path → TravState Path
  | 0, st => st
  | fuel + 1, st =>
    match st.queue with
    | [] => st
    | (curr, depth) :: rest =>
      if curr ∈ st.visited ∨ (depth : Int) > max_depth then
        travRun env all_files entry max_depth fuel { st with queue := rest }
      else
        let visited2 := insert curr st.visited
        let raw := env.reads curr
        let blocks0 := get_blocks raw
        let blocks := if curr = entry then { blocks0 with is_entry := true } else blocks0
        let used2 := if curr = entry then st.used ∪ find_usages raw else st.used
        let queue2 := (findIncludes raw).foldl (fun q inc =>
            match resolve_path env curr inc all_files with
            | some res => if res ∉ visited2 then q ++ [(res, depth + 1)] else q
            | none => q) rest
        travRun env all_files entry max_depth fuel
          { processed := st.processed ++ [(curr, blocks)], used := used2,
            queue := queue2, visited := visited2 }

/-- Step 2 of `main`: the dependency collection from the entry file. -/
def collect {Path : Type} [DecidableEq Path] (env : Env Path) (all_files : Finset Path)
    (entry : Path) (max_depth : Int) (fuel : Nat) : TravState Path :=
  travRun env all_files entry max_depth fuel
    { processed := [], used := ∅, queue := [(entry, 0)], visited := ∅ }

/-- The flattened function lists of all processed files, in order. -/
def funcsOf {Path : Type} (processed : List (Path × Blocks)) : List (String × String) :=
  (processed.map (fun pb => pb.2.functions)).join

/-- One full pass of the symbol-resolution loop: each function whose
name is in the (growing) set contributes the symbols of its body. -/
def onePass (funcs : List (String × String)) (used : Finset String) : Finset String :=
  funcs.foldl (fun acc nb => if nb.1 ∈ acc then acc ∪ find_usages nb.2 else acc) used

/-- All symbols any function body can ever contribute. -/
def bigU (funcs : List (String × String)) : Finset String :=
  funcs.foldr (fun nb acc => find_usages nb.2 ∪ acc) ∅

/-- The fixed-point loop of step 3 on a pass budget: passes repeat
while the previous pass grew the set. -/
def closureLoop (funcs : List (String × String)) : Nat → Finset String → Finset String
  | 0, used => used
  | fuel + 1, used =>
    let u2 := onePass funcs used
    if used.card < u2.card then closureLoop funcs fuel u2 else u2

/-- Step 3 of `main`: the fixed-point symbol resolution; the budget
exceeds the number of symbols a pass could still add, so the loop
always exits by reaching a pass that added nothing. -/
def fixClosure (funcs : List (String × String)) (used : Finset String) : Finset String :=
  closureLoop funcs ((bigU funcs \ used).card + 1) used

/-- Sorted insertion by path, modelling the sorted iteration of the
export step. -/
def insertSorted {Path : Type} (env : Env Path) (pb : Path × Blocks) :
    List (Path × Blocks) → List (Path × Blocks)
  | [] => [pb]
  | q :: rest =>
    if env.pathLe pb.1 q.1 then pb :: q :: rest else q :: insertSorted env pb rest

/-- The processed files in sorted path order. -/
def sortByPath {Path : Type} (env : Env Path) (l : List (Path × Blocks)) :
    List (Path × Blocks) :=
  l.foldr (insertSorted env) []

/-- The function entries passing the export filter: the file is the
entry file, or the function name is in the used-symbol set. -/
def exportedFunctions (used : Finset String) (b : Blocks) : List (String × String) :=
  b.functions.filter (fun nb => b.is_entry || decide (nb.1 ∈ used))

/-- The per-file emitted lines of step 4: header lines, define lines,
cleaned type spans, then the cleaned bodies of the functions passing
the export filter.  The file marker and the newline joining of the
output stream are elided. -/
def exportFile (used : Finset String) (b : Blocks) : List String :=
  b.headers ++ b.defines ++ b.types.map clean_whitespace
    ++ (exportedFunctions used b).map (fun nb => clean_whitespace nb.2)

/-- Step 4 of `main`: one block of emitted lines per processed file, in
sorted path order. -/
def exportAll {Path : Type} (env : Env Path) (processed : List (Path × Blocks))
    (used : Finset String) : List (Path × List String) :=
  (sortByPath env processed).map (fun pb => (pb.1, exportFile used pb.2))

/-- The whole pipeline after configuration: dependency collection,
symbol closure, and export. -/
def pipeline {Path : Type} [DecidableEq Path] (env : Env Path) (all_files : Finset Path)
    (entry : Path) (max_depth : Int) (fuel : Nat) : List (Path × List String) :=
  let st := collect env all_files entry max_depth fuel
  let used := fixClosure (funcsOf st.processed) st.used
  exportAll env st.processed used

/-- A concrete string-path environment for small examples: directories
are ignored, joining returns the include string itself, and
canonicalisation always succeeds. -/
def envStr : Env String :=
  { parent := fun _ => ""
    join := fun _ s => s
    pathOfString := fun s => s
    resolve := fun p => some p
    reads := fun _ => ""
    pathLe := fun a b => decide (a ≤ b) }

/-- The diamond example: the entry includes two headers, each of which
includes the same common header. -/
def readsDiamond : String → String := fun p =>
  if p = "a.c" then "#include \x22b.h\x22\n#include \x22c.h\x22\nint main() \x7bhelper();\x7d\n"
  else if p = "b.h" then "#include \x22d.h\x22\nint helper() \x7by;\x7d\n"
  else if p = "c.h" then "#include \x22d.h\x22\n"
  else if p = "d.h" then "int dead_code() \x7bz;\x7d\n"
  else ""

/-- The diamond environment. -/
def envDiamond : Env String := { envStr with reads := readsDiamond }

/-- The known files of the diamond example. -/
def filesDiamond : Finset String := {"a.c", "b.h", "c.h", "d.h"}

/-- The final used-symbol set of a run: the collected seed closed under
the fixed-point symbol resolution over all collected functions. -/
def finalUsed {Path : Type} [DecidableEq Path] (env : Env Path) (all_files : Finset Path)
    (entry : Path) (max_depth : Int) (fuel : Nat) : Finset String :=
  fixClosure (funcsOf (collect env all_files entry max_depth fuel).processed)
    (collect env all_files entry max_depth fuel).used

/-- Modelled from the spec, section 4.3: return the first of the six
ordered candidates that, once canonicalised, matches an entry in the
known-files set, or an unresolved result when none matches.  Stated as
a second definition to compare with `resolve_path` from the source. -/
def resolve_path_spec {Path : Type} [DecidableEq Path] (env : Env Path)
    (base_file : Path) (import_str : String) (all_files : Finset Path) : Option Path :=
  (candidatesList env base_file import_str).findSome? (fun c =>
    match env.resolve c with
    | some r => if r ∈ all_files then some r else none
    | none => none)

/-- The single-function example text of the block extractor. -/
def contentFunc : String := "int f() \x7bx;\x7d"

/-- A text whose first function candidate has an unterminated brace
scan while a later candidate closes properly. -/
def contentNine : String := "int f() \x7b\nint g() \x7b\n\x7d"

/-- A type declaration whose body contains a nested brace block. -/
def contentNested : String := "struct S \x7b struct T \x7bint x;\x7d t; \x7d;"

/-- The collected traversal state of the diamond example. -/
def stDiamond : TravState String := collect envDiamond filesDiamond "a.c" 3 10

/-- The final used-symbol set of the diamond example. -/
def usedDiamond : Finset String := fixClosure (funcsOf stDiamond.processed) stDiamond.used

/-- The recorded blocks of the diamond entry file. -/
def blocksEntryDiamond : Blocks := { get_blocks (readsDiamond "a.c") with is_entry := true }

/-- The recorded blocks of the unreachable common header. -/
def blocksDeadDiamond : Blocks := get_blocks (readsDiamond "d.h")

theorem scanLit_clean (q : Char) (cs rest : List Char)
    (hq : ∀ c ∈ cs, ¬(c = q ∨ c = '\\')) :
    scanLit q (cs ++ q :: rest) = some (cs ++ [q], rest) := by
  induction cs with
  | nil => rw [scanLit.eq_def]; simp
  | cons c cs ih =>
    have hc := hq c (by simp)
    push_neg at hc
    have ih2 := ih (fun d hd => hq d (by simp [hd]))
    rw [List.cons_append, scanLit.eq_def]
    simp [hc.1, hc.2, ih2]

theorem stripGo_dquote (gas : Nat) (cs rest : List Char)
    (hcs : ∀ c ∈ cs, ¬(c = '\x22' ∨ c = '\\')) :
    stripGo (gas + 1) ('\x22' :: (cs ++ '\x22' :: rest))
      = '\x22' :: ((cs ++ ['\x22']) ++ stripGo gas rest) := by
  rw [stripGo.eq_def]
  simp [scanLit_clean '\x22' cs rest hcs]

theorem stripGo_squote (gas : Nat) (cs rest : List Char)
    (hcs : ∀ c ∈ cs, ¬(c = '\x27' ∨ c = '\\')) :
    stripGo (gas + 1) ('\x27' :: (cs ++ '\x27' :: rest))
      = '\x27' :: ((cs ++ ['\x27']) ++ stripGo gas rest) := by
  rw [stripGo.eq_def]
  simp [scanLit_clean '\x27' cs rest hcs]

/-- Claim C4: the Lexical Stripper leaves single- and double-quoted
literal contents unchanged even when they contain a comment-opening
sequence: the example `char *s = "//not a comment";` strips to itself,
and in general a quoted literal whose contents avoid the quote and the
backslash is copied verbatim, whatever it contains. -/
theorem strip_comments_preserves_strings :
    strip_comments "char *s = \x22//not a comment\x22;"
      = "char *s = \x22//not a comment\x22;"
    ∧ (∀ (gas : Nat) (cs rest : List Char), (∀ c ∈ cs, ¬(c = '\x22' ∨ c = '\\')) →
        stripGo (gas + 1) ('\x22' :: (cs ++ '\x22' :: rest))
          = '\x22' :: ((cs ++ ['\x22']) ++ stripGo gas rest))
    ∧ (∀ (gas : Nat) (cs rest : List Char), (∀ c ∈ cs, ¬(c = '\x27' ∨ c = '\\')) →
        stripGo (gas + 1) ('\x27' :: (cs ++ '\x27' :: rest))
          = '\x27' :: ((cs ++ ['\x27']) ++ stripGo gas rest)) :=
  ⟨by decide, stripGo_dquote, stripGo_squote⟩

/-- Witness for C4: the general literal-preservation statement applied
to a double-quoted literal holding exactly a line-comment opener. -/
theorem strip_comments_preserves_strings_witness :
    stripGo 1 ('\x22' :: (['/', '/'] ++ '\x22' :: []))
      = '\x22' :: ((['/', '/'] ++ ['\x22']) ++ stripGo 0 []) :=
  strip_comments_preserves_strings.2.1 0 ['/', '/'] [] (by decide)

theorem resolveLoop_eq_findSome {Path : Type} [DecidableEq Path] (env : Env Path)
    (all_files : Finset Path) (cs : List Path) :
    resolveLoop env all_files cs = cs.findSome? (fun c =>
      match env.resolve c with
      | some r => if r ∈ all_files then some r else none
      | none => none) := by
  induction cs with
  | nil => rfl
  | cons c rest ih =>
    cases h : env.resolve c with
    | none => simp [resolveLoop, List.findSome?_cons, h, ih]
    | some r =>
      by_cases hr : r ∈ all_files <;>
        simp [resolveLoop, List.findSome?_cons, h, hr, ih]

/-- Claim C7: the Include Resolver tries exactly the six candidates of
`candidatesList`, in order, and returns the first whose canonicalised
path is in the known-files set, or an unresolved result when no
candidate matches. -/
theorem resolve_path_first_candidate {Path : Type} [DecidableEq Path] (env : Env Path)
    (base_file : Path) (import_str : String) (all_files : Finset Path) :
    resolve_path env base_file import_str all_files
      = resolve_path_spec env base_file import_str all_files
    ∧ (resolve_path env base_file import_str all_files = none ↔
        ∀ c ∈ candidatesList env base_file import_str,
          ∀ r, env.resolve c = some r → r ∉ all_files) := by
  constructor
  · exact resolveLoop_eq_findSome env all_files _
  · rw [resolve_path, resolveLoop_eq_findSome env all_files _]
    rw [List.findSome?_eq_none]
    constructor
    · intro h c hc r hr
      have hc2 := h c hc
      rw [hr] at hc2
      intro hmem
      simp [hmem] at hc2
    · intro h c hc
      cases hr : env.resolve c with
      | none => rfl
      | some r => simp [h c hc r hr]

theorem travRun_nil_queue {Path : Type} [DecidableEq Path] (env : Env Path)
    (all_files : Finset Path) (entry : Path) (max_depth : Int) :
    ∀ (fuel : Nat) (st : TravState Path), st.queue = [] →
      travRun env all_files entry max_depth fuel st = st := by
  intro fuel st h
  cases fuel with
  | zero => rfl
  | succ n => simp [travRun, h]

theorem travRun_skip {Path : Type} [DecidableEq Path] (env : Env Path)
    (all_files : Finset Path) (entry : Path) (max_depth : Int) (fuel : Nat)
    (st : TravState Path) (curr : Path) (depth : Nat) (rest : List (Path × Nat))
    (hq : st.queue = (curr, depth) :: rest)
    (hskip : curr ∈ st.visited ∨ (depth : Int) > max_depth) :
    travRun env all_files entry max_depth (fuel + 1) st
      = travRun env all_files entry max_depth fuel { st with queue := rest } := by
  rw [travRun, hq]
  simp [hskip]

/-- Claim C10: with a negative `max_depth` the entry file itself is
dequeued at depth 0, which exceeds the bound, and skipped: nothing is
processed, the used-symbol set stays empty, nothing is visited, and
the exported bundle is empty. -/
theorem negative_depth_processes_nothing {Path : Type} [DecidableEq Path]
    (env : Env Path) (all_files : Finset Path) (entry : Path) (max_depth : Int)
    (fuel : Nat) (h : max_depth < 0) :
    (collect env all_files entry max_depth fuel).processed = []
    ∧ (collect env all_files entry max_depth fuel).used = ∅
    ∧ (collect env all_files entry max_depth fuel).visited = ∅
    ∧ pipeline env all_files entry max_depth fuel = [] := by
  have hcoll : ∀ st : TravState Path,
      collect env all_files entry max_depth fuel
        = travRun env all_files entry max_depth fuel
            { processed := [], used := ∅, queue := [(entry, 0)], visited := ∅ } := by
    intro _; rfl
  have hmain : (collect env all_files entry max_depth fuel).processed = []
      ∧ (collect env all_files entry max_depth fuel).used = ∅
      ∧ (collect env all_files entry max_depth fuel).visited = ∅ := by
    cases fuel with
    | zero => exact ⟨rfl, rfl, rfl⟩
    | succ n =>
      have hcond : entry ∈ (∅ : Finset Path).val ∨ ((0 : Nat) : Int) > max_depth :=
        Or.inr (by omega)
      rw [collect,
        travRun_skip env all_files entry max_depth n _ entry 0 [] rfl (by exact_mod_cast hcond),
        travRun_nil_queue env all_files entry max_depth n _ rfl]
      exact ⟨rfl, rfl, rfl⟩
  refine ⟨hmain.1, hmain.2.1, hmain.2.2, ?_⟩
  rw [pipeline]
  rw [hmain.1]
  rfl

/-- Witness for C10: a concrete run at depth `-1` over the diamond
environment processes nothing and exports nothing. -/
theorem negative_depth_processes_nothing_witness :
    (collect envDiamond filesDiamond "a.c" (-1) 7).processed = []
    ∧ (collect envDiamond filesDiamond "a.c" (-1) 7).used = ∅
    ∧ (collect envDiamond filesDiamond "a.c" (-1) 7).visited = ∅
    ∧ pipeline envDiamond filesDiamond "a.c" (-1) 7 = [] :=
  negative_depth_processes_nothing envDiamond filesDiamond "a.c" (-1) 7 (by decide)

theorem onePass_subset (funcs : List (String × String)) (u : Finset String) :
    u ⊆ onePass funcs u := by
  induction funcs generalizing u with
  | nil => simp [onePass]
  | cons nb rest ih =>
    have h1 : u ⊆ (if nb.1 ∈ u then u ∪ find_usages nb.2 else u) := by
      split <;> simp
    exact h1.trans (ih _)

theorem onePass_subset_union (funcs : List (String × String)) (u : Finset String) :
    onePass funcs u ⊆ u ∪ bigU funcs := by
  induction funcs generalizing u with
  | nil => simp [onePass, bigU]
  | cons nb rest ih =>
    have h2 : onePass (nb :: rest) u
        = onePass rest (if nb.1 ∈ u then u ∪ find_usages nb.2 else u) := rfl
    rw [h2]
    refine (ih _).trans ?_
    have h1 : (if nb.1 ∈ u then u ∪ find_usages nb.2 else u)
        ⊆ u ∪ find_usages nb.2 := by
      split <;> simp
    intro x hx
    rcases Finset.mem_union.mp hx with hx | hx
    · rcases Finset.mem_union.mp (h1 hx) with hx | hx
      · exact Finset.mem_union_left _ hx
      · refine Finset.mem_union_right _ ?_
        show x ∈ bigU (nb :: rest)
        exact Finset.mem_union_left _ hx
    · refine Finset.mem_union_right _ ?_
      show x ∈ bigU (nb :: rest)
      exact Finset.mem_union_right _ hx

theorem closure_measure (funcs : List (String × String)) (used : Finset String)
    (h : used.card < (onePass funcs used).card) :
    (bigU funcs \ onePass funcs used).card < (bigU funcs \ used).card := by
  have hsub : used ⊆ onePass funcs used := onePass_subset funcs used
  have hss : used ⊂ onePass funcs used :=
    Finset.ssubset_iff_subset_ne.mpr
      ⟨hsub, fun he => absurd (congrArg Finset.card he) (by omega)⟩
  obtain ⟨x, hx2, hx1⟩ := Finset.exists_of_ssubset hss
  have hxU : x ∈ bigU funcs := by
    rcases Finset.mem_union.mp (onePass_subset_union funcs used hx2) with hx | hx
    · exact absurd hx hx1
    · exact hx
  apply Finset.card_lt_card
  constructor
  · exact Finset.sdiff_subset_sdiff (le_refl _) hsub
  · intro hcon
    have hx3 : x ∈ bigU funcs \ used := Finset.mem_sdiff.mpr ⟨hxU, hx1⟩
    have hx4 : x ∈ bigU funcs \ onePass funcs used := hcon hx3
    exact absurd hx2 (Finset.mem_sdiff.mp hx4).2

theorem closureLoop_fix (funcs : List (String × String)) :
    ∀ (fuel : Nat) (u : Finset String), (bigU funcs \ u).card < fuel →
      onePass funcs (closureLoop funcs fuel u) = closureLoop funcs fuel u
      ∧ ∃ n, closureLoop funcs fuel u = (onePass funcs)^[n] u := by
  intro fuel
  induction fuel with
  | zero => intro u hu; omega
  | succ m ih =>
    intro u hu
    simp only [closureLoop]
    by_cases hgrow : u.card < (onePass funcs u).card
    · rw [if_pos hgrow]
      have hmeas := closure_measure funcs u hgrow
      have hrec := ih (onePass funcs u) (by omega)
      refine ⟨hrec.1, ?_⟩
      obtain ⟨n, hn⟩ := hrec.2
      exact ⟨n + 1, by rw [hn, Function.iterate_succ_apply]⟩
    · rw [if_neg hgrow]
      have hsub := onePass_subset funcs u
      have heq : onePass funcs u = u :=
        (Finset.eq_of_subset_of_card_le hsub (by omega)).symm
      constructor
      · rw [heq, heq]
      · exact ⟨1, by rw [Function.iterate_one]⟩

theorem closureLoop_stable (funcs : List (String × String)) :
    ∀ (f1 : Nat) (u : Finset String) (f2 : Nat),
      (bigU funcs \ u).card < f1 → (bigU funcs \ u).card < f2 →
      closureLoop funcs f1 u = closureLoop funcs f2 u := by
  intro f1
  induction f1 with
  | zero => intro u f2 h1 _; omega
  | succ m ih =>
    intro u f2 h1 h2
    cases f2 with
    | zero => omega
    | succ m2 =>
      simp only [closureLoop]
      by_cases hgrow : u.card < (onePass funcs u).card
      · rw [if_pos hgrow, if_pos hgrow]
        have hmeas := closure_measure funcs u hgrow
        exact ih _ _ (by omega) (by omega)
      · rw [if_neg hgrow, if_neg hgrow]

/-- Claim C2: the used-symbol set only grows across successive full
passes of the symbol-resolution loop, and for every finite input the
loop exits at a pass that added nothing: the value it returns is a
fixed point of `onePass` reached after finitely many passes, and any
sufficiently large pass budget returns that same value, so the while
loop terminates rather than depending on the budget. -/
theorem closure_monotone_terminates (funcs : List (String × String)) (u : Finset String) :
    (∀ n : Nat, (onePass funcs)^[n] u ⊆ (onePass funcs)^[n + 1] u)
    ∧ onePass funcs (fixClosure funcs u) = fixClosure funcs u
    ∧ (∃ n : Nat, fixClosure funcs u = (onePass funcs)^[n] u)
    ∧ (∀ fuel : Nat, (bigU funcs \ u).card < fuel →
        closureLoop funcs fuel u = fixClosure funcs u) := by
  have hfix := closureLoop_fix funcs ((bigU funcs \ u).card + 1) u (by omega)
  refine ⟨?_, hfix.1, hfix.2, ?_⟩
  · intro n
    rw [Function.iterate_succ_apply']
    exact onePass_subset funcs _
  · intro fuel hf
    exact closureLoop_stable funcs fuel u ((bigU funcs \ u).card + 1) hf (by omega)

/-- Witness for C2: over the diamond run's collected functions, a
concrete oversized budget returns the same closure as the loop. -/
theorem closure_monotone_terminates_witness :
    closureLoop (funcsOf stDiamond.processed) 100 stDiamond.used
      = fixClosure (funcsOf stDiamond.processed) stDiamond.used :=
  (closure_monotone_terminates (funcsOf stDiamond.processed) stDiamond.used).2.2.2
    100 (by decide)

theorem travRun_process {Path : Type} [DecidableEq Path] (env : Env Path)
    (all_files : Finset Path) (entry : Path) (max_depth : Int) (fuel : Nat)
    (st : TravState Path) (curr : Path) (depth : Nat) (rest : List (Path × Nat))
    (hq : st.queue = (curr, depth) :: rest)
    (hgo : ¬(curr ∈ st.visited ∨ (depth : Int) > max_depth)) :
    travRun env all_files entry max_depth (fuel + 1) st
      = travRun env all_files entry max_depth fuel
          { processed := st.processed ++ [(curr,
              if curr = entry then { get_blocks (env.reads curr) with is_entry := true }
              else get_blocks (env.reads curr))],
            used := if curr = entry then st.used ∪ find_usages (env.reads curr)
                    else st.used,
            queue := (findIncludes (env.reads curr)).foldl (fun q inc =>
                match resolve_path env curr inc all_files with
                | some res =>
                  if res ∉ insert curr st.visited then q ++ [(res, depth + 1)] else q
                | none => q) rest,
            visited := insert curr st.visited } := by
  rw [travRun, hq]
  simp [hgo]

theorem enqueue_mem {Path : Type} [DecidableEq Path] (env : Env Path)
    (all_files : Finset Path) (curr : Path) (depth : Nat) (visited2 : Finset Path) :
    ∀ (incs : List String) (q0 : List (Path × Nat)) (pd : Path × Nat),
      pd ∈ incs.foldl (fun q inc =>
          match resolve_path env curr inc all_files with
          | some res => if res ∉ visited2 then q ++ [(res, depth + 1)] else q
          | none => q) q0 →
      pd ∈ q0 ∨ pd.2 = depth + 1 := by
  intro incs
  induction incs with
  | nil => intro q0 pd h; exact Or.inl h
  | cons inc rest ih =>
    intro q0 pd h
    rw [List.foldl_cons] at h
    rcases ih _ pd h with h2 | h2
    · cases hr : resolve_path env curr inc all_files with
      | none => simp only [hr] at h2; exact Or.inl h2
      | some res =>
        simp only [hr] at h2
        by_cases hv : res ∉ visited2
        · rw [if_pos hv] at h2
          rcases List.mem_append.mp h2 with h3 | h3
          · exact Or.inl h3
          · right
            simp at h3
            rw [h3]
        · rw [if_neg hv] at h2
          exact Or.inl h2
    · exact Or.inr h2

theorem travRun_nodup {Path : Type} [DecidableEq Path] (env : Env Path)
    (all_files : Finset Path) (entry : Path) (max_depth : Int) :
    ∀ (fuel : Nat) (st : TravState Path),
      (st.processed.map Prod.fst).Nodup →
      (∀ p ∈ st.processed.map Prod.fst, p ∈ st.visited) →
      ((travRun env all_files entry max_depth fuel st).processed.map Prod.fst).Nodup := by
  intro fuel
  induction fuel with
  | zero => intro st h1 _; exact h1
  | succ m ih =>
    intro st h1 h2
    cases hq : st.queue with
    | nil => rw [travRun_nil_queue env all_files entry max_depth _ _ hq]; exact h1
    | cons pd rest =>
      obtain ⟨curr, depth⟩ := pd
      by_cases hskip : curr ∈ st.visited ∨ (depth : Int) > max_depth
      · rw [travRun_skip env all_files entry max_depth m st curr depth rest hq hskip]
        exact ih _ h1 h2
      · rw [travRun_process env all_files entry max_depth m st curr depth rest hq hskip]
        apply ih
        · rw [List.map_append]
          refine List.Nodup.append h1 (by simp) ?_
          intro a ha hb
          simp at hb
          subst hb
          exact (not_or.mp hskip).1 (h2 _ ha)
        · intro p hp
          rw [List.map_append] at hp
          rcases List.mem_append.mp hp with hp | hp
          · exact Finset.mem_insert_of_mem (h2 _ hp)
          · simp at hp
            rw [hp]
            exact Finset.mem_insert_self _ _

/-- Claim C6: every file path is recorded at most once among the
discovered files, however many files include it, and in the diamond
example — two files both including a common third — the common header
appears exactly once in the discovered-files output. -/
theorem file_visited_at_most_once {Path : Type} [DecidableEq Path] (env : Env Path)
    (all_files : Finset Path) (entry : Path) (max_depth : Int) (fuel : Nat) :
    ((collect env all_files entry max_depth fuel).processed.map Prod.fst).Nodup
    ∧ stDiamond.processed.map Prod.fst = ["a.c", "b.h", "c.h", "d.h"] :=
  ⟨travRun_nodup env all_files entry max_depth fuel _ (by simp) (by simp),
   by decide⟩

theorem travRun_depth_zero {Path : Type} [DecidableEq Path] (env : Env Path)
    (all_files : Finset Path) (entry : Path) :
    ∀ (fuel : Nat) (st : TravState Path),
      (∀ pd ∈ st.queue, pd.1 = entry ∨ 0 < pd.2) →
      (∀ pb ∈ st.processed, pb.1 = entry) →
      (∀ p ∈ st.visited, p = entry) →
      st.used ⊆ find_usages (env.reads entry) →
      (∀ pb ∈ (travRun env all_files entry 0 fuel st).processed, pb.1 = entry)
      ∧ (∀ p ∈ (travRun env all_files entry 0 fuel st).visited, p = entry)
      ∧ (travRun env all_files entry 0 fuel st).used ⊆ find_usages (env.reads entry) := by
  intro fuel
  induction fuel with
  | zero => intro st _ hproc hvis hused; exact ⟨hproc, hvis, hused⟩
  | succ m ih =>
    intro st hque hproc hvis hused
    cases hq : st.queue with
    | nil =>
      rw [travRun_nil_queue env all_files entry 0 _ _ hq]
      exact ⟨hproc, hvis, hused⟩
    | cons pd rest =>
      obtain ⟨curr, depth⟩ := pd
      by_cases hskip : curr ∈ st.visited ∨ (depth : Int) > 0
      · rw [travRun_skip env all_files entry 0 m st curr depth rest hq hskip]
        exact ih _ (fun pd hpd => hque pd (by rw [hq]; exact List.mem_cons_of_mem _ hpd))
          hproc hvis hused
      · rw [travRun_process env all_files entry 0 m st curr depth rest hq hskip]
        have hd0 : depth = 0 := by
          have h2 := (not_or.mp hskip).2
          omega
        have hce : curr = entry := by
          rcases hque (curr, depth) (by rw [hq]; exact List.mem_cons_self _ _) with h | h
          · exact h
          · omega
        subst hce
        apply ih
        · intro pd hpd
          rcases enqueue_mem env all_files curr depth _ _ _ pd hpd with h | h
          · exact hque pd (by rw [hq]; exact List.mem_cons_of_mem _ h)
          · right; omega
        · intro pb hpb
          rcases List.mem_append.mp hpb with h | h
          · exact hproc pb h
          · simp only [List.mem_singleton] at h
            rw [h]
        · intro p hp
          rcases Finset.mem_insert.mp hp with h | h
          · exact h
          · exact hvis p h
        · show (if curr = curr then st.used ∪ find_usages (env.reads curr) else st.used)
              ⊆ find_usages (env.reads curr)
          rw [if_pos rfl]
          exact Finset.union_subset hused (Finset.Subset.refl _)

/-- Claim C5: with `max_depth = 0` only the entry file is processed:
every recorded file is the entry, every visited path is the entry, and
the used-symbol set never exceeds the entry file's own symbols; more
generally, a dequeued pair whose depth exceeds `max_depth` only drops
off the queue — it contributes no blocks and none of its includes are
followed. -/
theorem depth_zero_only_entry {Path : Type} [DecidableEq Path] (env : Env Path)
    (all_files : Finset Path) (entry : Path) (fuel : Nat) :
    (∀ pb ∈ (collect env all_files entry 0 fuel).processed, pb.1 = entry)
    ∧ (∀ p ∈ (collect env all_files entry 0 fuel).visited, p = entry)
    ∧ (collect env all_files entry 0 fuel).used ⊆ find_usages (env.reads entry)
    ∧ (∀ (max_depth : Int) (fuel2 : Nat) (st : TravState Path) (curr : Path)
         (depth : Nat) (rest : List (Path × Nat)),
        st.queue = (curr, depth) :: rest → (depth : Int) > max_depth →
        travRun env all_files entry max_depth (fuel2 + 1) st
          = travRun env all_files entry max_depth fuel2 { st with queue := rest }) := by
  have hinv := travRun_depth_zero env all_files entry fuel
    { processed := [], used := ∅, queue := [(entry, 0)], visited := ∅ }
    (by intro pd hpd; simp at hpd; rw [hpd]; exact Or.inl rfl)
    (by simp) (by simp) (by simp)
  exact ⟨hinv.1, hinv.2.1, hinv.2.2,
    fun md f2 st curr depth rest hq hd =>
      travRun_skip env all_files entry md f2 st curr depth rest hq (Or.inr hd)⟩

/-- Witness for C5: over the diamond environment at depth 0, the single
processed file is the entry, and a concrete too-deep queue entry is
dropped without contributing anything. -/
theorem depth_zero_only_entry_witness :
    ((("a.c" : String), blocksEntryDiamond).1 = "a.c")
    ∧ travRun envDiamond filesDiamond "a.c" 5 (3 + 1)
        { processed := [], used := ∅, queue := [("b.h", 7)], visited := ∅ }
        = travRun envDiamond filesDiamond "a.c" 5 3
            { processed := [], used := ∅, queue := [], visited := ∅ } :=
  ⟨(depth_zero_only_entry envDiamond filesDiamond "a.c" 5).1
      ("a.c", blocksEntryDiamond) (by decide),
   (depth_zero_only_entry envDiamond filesDiamond "a.c" 5).2.2.2 5 3
      { processed := [], used := ∅, queue := [("b.h", 7)], visited := ∅ }
      "b.h" 7 [] rfl (by decide)⟩

theorem travRun_is_entry_iff {Path : Type} [DecidableEq Path] (env : Env Path)
    (all_files : Finset Path) (entry : Path) (max_depth : Int) :
    ∀ (fuel : Nat) (st : TravState Path),
      (∀ pb ∈ st.processed, pb.2.is_entry = true ↔ pb.1 = entry) →
      ∀ pb ∈ (travRun env all_files entry max_depth fuel st).processed,
        pb.2.is_entry = true ↔ pb.1 = entry := by
  intro fuel
  induction fuel with
  | zero => intro st h1; exact h1
  | succ m ih =>
    intro st h1
    cases hq : st.queue with
    | nil => rw [travRun_nil_queue env all_files entry max_depth _ _ hq]; exact h1
    | cons pd rest =>
      obtain ⟨curr, depth⟩ := pd
      by_cases hskip : curr ∈ st.visited ∨ (depth : Int) > max_depth
      · rw [travRun_skip env all_files entry max_depth m st curr depth rest hq hskip]
        exact ih _ h1
      · rw [travRun_process env all_files entry max_depth m st curr depth rest hq hskip]
        apply ih
        intro pb hpb
        rcases List.mem_append.mp hpb with h | h
        · exact h1 pb h
        · simp at h
          rw [h]
          by_cases hce : curr = entry
          · simp [hce]
          · simp [hce]
            show (get_blocks (env.reads curr)).is_entry = false
            rfl

/-- Claim C1: for every discovered file the Selective Exporter emits
its header lines, define lines and type spans, and emits a function
body exactly when the owning file is the entry file or the function's
name is in the final used-symbol set; in particular every function of
the entry file passes the export filter regardless of reachability. -/
theorem selective_export_iff {Path : Type} [DecidableEq Path] (env : Env Path)
    (all_files : Finset Path) (entry : Path) (max_depth : Int) (fuel : Nat)
    (p : Path) (b : Blocks)
    (h : (p, b) ∈ (collect env all_files entry max_depth fuel).processed) :
    (b.is_entry = true ↔ p = entry)
    ∧ (∀ hdr ∈ b.headers,
        hdr ∈ exportFile (finalUsed env all_files entry max_depth fuel) b)
    ∧ (∀ d ∈ b.defines,
        d ∈ exportFile (finalUsed env all_files entry max_depth fuel) b)
    ∧ (∀ t ∈ b.types,
        clean_whitespace t ∈ exportFile (finalUsed env all_files entry max_depth fuel) b)
    ∧ (∀ nb ∈ b.functions,
        nb ∈ exportedFunctions (finalUsed env all_files entry max_depth fuel) b
          ↔ (p = entry ∨ nb.1 ∈ finalUsed env all_files entry max_depth fuel))
    ∧ (p = entry → ∀ nb ∈ b.functions,
        nb ∈ exportedFunctions (finalUsed env all_files entry max_depth fuel) b) := by
  have hentry : b.is_entry = true ↔ p = entry := by
    have := travRun_is_entry_iff env all_files entry max_depth fuel
      { processed := [], used := ∅, queue := [(entry, 0)], visited := ∅ }
      (by simp) (p, b) h
    exact this
  have hfun : ∀ nb ∈ b.functions,
      nb ∈ exportedFunctions (finalUsed env all_files entry max_depth fuel) b
        ↔ (p = entry ∨ nb.1 ∈ finalUsed env all_files entry max_depth fuel) := by
    intro nb hnb
    rw [exportedFunctions, List.mem_filter]
    constructor
    · intro hmem
      rcases Bool.or_eq_true _ _ |>.mp hmem.2 with h2 | h2
      · exact Or.inl (hentry.mp h2)
      · exact Or.inr (of_decide_eq_true h2)
    · intro h2
      refine ⟨hnb, ?_⟩
      rcases h2 with h2 | h2
      · exact Bool.or_eq_true _ _ |>.mpr (Or.inl (hentry.mpr h2))
      · exact Bool.or_eq_true _ _ |>.mpr (Or.inr (decide_eq_true h2))
  refine ⟨hentry, ?_, ?_, ?_, hfun, ?_⟩
  · intro hdr hh
    rw [exportFile]
    exact List.mem_append_left _ (List.mem_append_left _
      (List.mem_append_left _ hh))
  · intro d hd
    rw [exportFile]
    exact List.mem_append_left _ (List.mem_append_left _
      (List.mem_append_right _ hd))
  · intro t ht
    rw [exportFile]
    exact List.mem_append_left _ (List.mem_append_right _
      (List.mem_map_of_mem clean_whitespace ht))
  · intro hpe nb hnb
    exact (hfun nb hnb).mpr (Or.inl hpe)

/-- Witness for C1: in the diamond run, the entry file's `main` passes
the export filter by the entry exemption. -/
theorem selective_export_iff_witness :
    ("main", "int main() \x7bhelper();\x7d") ∈ exportedFunctions
      (finalUsed envDiamond filesDiamond "a.c" 3 10) blocksEntryDiamond :=
  ((selective_export_iff envDiamond filesDiamond "a.c" 3 10 "a.c" blocksEntryDiamond
      (by decide)).2.2.2.2.1
    ("main", "int main() \x7bhelper();\x7d") (by decide)).mpr (Or.inl rfl)

theorem braceScan_spec : ∀ (l : List Char) (k : Int) (span : List Char),
    braceScan l k = some span →
    ∃ pre, span = pre ++ ['\x7d']
      ∧ (span.count '\x7b' : Int) = span.count '\x7d' - k := by
  intro l
  induction l with
  | nil => intro k span h; simp [braceScan] at h
  | cons c rest ih =>
    intro k span h
    rw [braceScan.eq_def] at h
    simp only at h
    by_cases h1 : c = '\x7b'
    · rw [if_pos h1] at h
      cases hb : braceScan rest (k + 1) with
      | none => rw [hb] at h; exact absurd h (by simp)
      | some s =>
        rw [hb] at h
        simp only [Option.some.injEq] at h
        obtain ⟨pre, hpre, hcount⟩ := ih (k + 1) s hb
        subst h
        subst h1
        refine ⟨'\x7b' :: pre, by rw [hpre]; rfl, ?_⟩
        simp only [List.count_cons, hpre] at hcount ⊢
        simp at hcount ⊢
        omega
    · rw [if_neg h1] at h
      by_cases h2 : c = '\x7d'
      · rw [if_pos h2] at h
        by_cases h3 : k - 1 = 0
        · rw [if_pos h3] at h
          simp only [Option.some.injEq] at h
          subst h
          subst h2
          refine ⟨[], by simp, ?_⟩
          simp
          omega
        · rw [if_neg h3] at h
          cases hb : braceScan rest (k - 1) with
          | none => rw [hb] at h; exact absurd h (by simp)
          | some s =>
            rw [hb] at h
            simp only [Option.some.injEq] at h
            obtain ⟨pre, hpre, hcount⟩ := ih (k - 1) s hb
            subst h
            subst h2
            refine ⟨'\x7d' :: pre, by rw [hpre]; rfl, ?_⟩
            simp only [List.count_cons, hpre] at hcount ⊢
            simp at hcount ⊢
            omega
      · rw [if_neg h2] at h
        cases hb : braceScan rest k with
        | none => rw [hb] at h; exact absurd h (by simp)
        | some s =>
          rw [hb] at h
          simp only [Option.some.injEq] at h
          obtain ⟨pre, hpre, hcount⟩ := ih k s hb
          subst h
          refine ⟨c :: pre, by rw [hpre]; rfl, ?_⟩
          simp only [List.count_cons, hpre] at hcount ⊢
          simp [h1, h2] at hcount ⊢
          omega

theorem insertFunc_mem (m : List (String × String)) (name body : String)
    (nb : String × String) (h : nb ∈ insertFunc m name body) :
    nb ∈ m ∨ nb = (name, body) := by
  unfold insertFunc at h
  split at h
  · rcases List.mem_map.mp h with ⟨e, he, heq⟩
    by_cases hc : e.1 = name
    · right
      rw [← heq, if_pos hc]
    · left
      rw [← heq, if_neg hc]
      exact he
  · rcases List.mem_append.mp h with h2 | h2
    · exact Or.inl h2
    · right
      simpa using h2

theorem funcFold_mem (stripped : List Char) (P : String × String → Prop) :
    ∀ (mlist : List (Nat × List Char)) (m0 : List (String × String)),
      (∀ nb ∈ m0, P nb) →
      (∀ pn ∈ mlist, ∀ span, braceScan (stripped.drop pn.1) 0 = some span →
          P (String.mk pn.2, String.mk span)) →
      ∀ nb ∈ mlist.foldl (fun m pn =>
          match braceScan (stripped.drop pn.1) 0 with
          | some span => insertFunc m (String.mk pn.2) (String.mk span)
          | none => m) m0, P nb := by
  intro mlist
  induction mlist with
  | nil => intro m0 h0 _ nb hnb; exact h0 nb hnb
  | cons pn rest ih =>
    intro m0 h0 hstep nb hnb
    rw [List.foldl_cons] at hnb
    refine ih _ ?_
      (fun pn2 hpn2 span hs => hstep pn2 (List.mem_cons_of_mem _ hpn2) span hs) nb hnb
    intro nb2 hnb2
    cases hb : braceScan (stripped.drop pn.1) 0 with
    | none => simp only [hb] at hnb2; exact h0 nb2 hnb2
    | some span =>
      simp only [hb] at hnb2
      rcases insertFunc_mem _ _ _ _ hnb2 with h2 | h2
      · exact h0 nb2 h2
      · rw [h2]
        exact hstep pn (List.mem_cons_self _ _) span hb

theorem get_blocks_functions_mem (content : String) (nb : String × String)
    (h : nb ∈ (get_blocks content).functions) :
    ∃ pn ∈ funcMatches (stripAux content.data),
      String.mk pn.2 = nb.1
      ∧ braceScan ((stripAux content.data).drop pn.1) 0 = some nb.2.data := by
  have h2 : nb ∈ (funcMatches (stripAux content.data)).foldl (fun m pn =>
      match braceScan ((stripAux content.data).drop pn.1) 0 with
      | some span => insertFunc m (String.mk pn.2) (String.mk span)
      | none => m) [] := h
  refine funcFold_mem (stripAux content.data)
    (fun nb2 => ∃ pn ∈ funcMatches (stripAux content.data),
      String.mk pn.2 = nb2.1
      ∧ braceScan ((stripAux content.data).drop pn.1) 0 = some nb2.2.data)
    _ [] (by simp) ?_ nb h2
  intro pn hpn span hs
  exact ⟨pn, hpn, rfl, hs⟩

/-- Claim C3 (amended): every captured function body has equal counts
of opening and closing braces and ends with the closing brace at which
the scan counter returned to zero; the span, however, begins at the
start of the matched signature rather than at the opening brace. -/
theorem function_body_brace_balance (content : String) (nb : String × String)
    (h : nb ∈ (get_blocks content).functions) :
    nb.2.data.count '\x7b' = nb.2.data.count '\x7d'
    ∧ nb.2.data.getLast? = some '\x7d' := by
  obtain ⟨pn, hpn, hname, hscan⟩ := get_blocks_functions_mem content nb h
  obtain ⟨pre, hpre, hcount⟩ := braceScan_spec _ 0 _ hscan
  constructor
  · omega
  · rw [hpre]
    simp

/-- Counterexample for C3 as stated: the extractor stores the whole
matched span from the start of the signature, so the captured body's
first character is the first character of the return type, not the
opening brace. -/
theorem function_body_first_char_counterexample :
    (get_blocks contentFunc).functions = [("f", contentFunc)]
    ∧ ¬ (∀ nb ∈ (get_blocks contentFunc).functions,
          nb.2.data.head? = some '\x7b') := by
  constructor
  · decide
  · decide

/-- Witness for the amended C3 at the single-function example. -/
theorem function_body_brace_balance_witness :
    contentFunc.data.count '\x7b' = contentFunc.data.count '\x7d'
    ∧ contentFunc.data.getLast? = some '\x7d' :=
  function_body_brace_balance contentFunc ("f", contentFunc) (by decide)

/-- Claim C9: a candidate whose brace scan never returns to zero is
silently dropped — no entry is added for it, no error is raised since
the extractor is total, and extraction continues with later
candidates: in the example the unterminated `f` is dropped while the
later `g` is still captured; in general every function-map entry stems
from a candidate whose brace scan succeeded. -/
theorem unterminated_candidate_dropped :
    ((funcMatches (stripAux contentNine.data)).map
        (fun pn => (pn.1, String.mk pn.2)) = [(0, "f"), (10, "g")]
      ∧ braceScan ((stripAux contentNine.data).drop 0) 0 = none
      ∧ (get_blocks contentNine).functions = [("g", "int g() \x7b\n\x7d")])
    ∧ (∀ (content : String) (nb : String × String),
        nb ∈ (get_blocks content).functions →
        ∃ pn ∈ funcMatches (stripAux content.data),
          String.mk pn.2 = nb.1
          ∧ braceScan ((stripAux content.data).drop pn.1) 0 = some nb.2.data) :=
  ⟨by decide, get_blocks_functions_mem⟩

/-- Witness for C9: the surviving `g` entry of the example indeed stems
from a successful scan at its own candidate position. -/
theorem unterminated_candidate_dropped_witness :
    ∃ pn ∈ funcMatches (stripAux contentNine.data),
      String.mk pn.2 = ("g", ("int g() \x7b\n\x7d" : String)).1
      ∧ braceScan ((stripAux contentNine.data).drop pn.1) 0
          = some ("g", ("int g() \x7b\n\x7d" : String)).2.data :=
  unterminated_candidate_dropped.2 contentNine ("g", "int g() \x7b\n\x7d") (by decide)

theorem take_runLength_all (P : Char → Bool) :
    ∀ l : List Char, ∀ c ∈ l.take (runLength P l), P c := by
  intro l
  induction l with
  | nil => intro c hc; simp at hc
  | cons d rest ih =>
    intro c hc
    rw [runLength] at hc
    by_cases hd : P d
    · rw [if_pos hd, List.take_succ_cons] at hc
      rcases List.mem_cons.mp hc with rfl | hc2
      · exact hd
      · exact ih c hc2
    · rw [if_neg hd] at hc
      simp at hc

theorem startsWithL_take : ∀ (p l : List Char), startsWithL p l = true →
    l.take p.length = p := by
  intro p
  induction p with
  | nil => intro l _; simp
  | cons a ps ih =>
    intro l h
    cases l with
    | nil => simp [startsWithL] at h
    | cons c cs =>
      rw [startsWithL, Bool.and_eq_true] at h
      have ha : a = c := by simpa using h.1
      rw [List.length_cons, List.take_succ_cons, ih cs h.2, ha]

theorem typeTailLen_shape (l : List Char) (t : Nat) (h : typeTailLen l = some t) :
    ∃ w1 idw w2, l.take t = w1 ++ (idw ++ (w2 ++ [';']))
      ∧ (∀ c ∈ w1, isSpaceChar c) ∧ (∀ c ∈ idw, isWordChar c)
      ∧ (∀ c ∈ w2, isSpaceChar c) := by
  unfold typeTailLen at h
  simp only at h
  set w1 := runLength isSpaceChar l with hw1
  set w2 := runLength isWordChar (l.drop w1) with hw2
  set w3 := runLength isSpaceChar (l.drop (w1 + w2)) with hw3
  split at h
  case h_1 x tl heq =>
    rw [Option.some.injEq] at h
    subst h
    refine ⟨l.take w1, (l.drop w1).take w2, (l.drop (w1 + w2)).take w3, ?_, ?_, ?_, ?_⟩
    · have e1 : w1 + w2 + w3 + 1 = w1 + (w2 + (w3 + 1)) := by omega
      rw [e1, List.take_add, List.take_add, List.take_add, List.drop_drop,
        List.drop_drop, heq]
      simp
    · rw [hw1]; exact take_runLength_all _ _
    · rw [hw2]; exact take_runLength_all _ _
    · rw [hw3]; exact take_runLength_all _ _
  case h_2 => exact absurd h (by simp)

theorem scanTypeBody_shape : ∀ (body : List Char) (n : Nat),
    scanTypeBody body = some n →
    ∃ mid w1 idw w2,
      body.take n = mid ++ '\x7d' :: (w1 ++ (idw ++ (w2 ++ [';'])))
      ∧ (∀ c ∈ w1, isSpaceChar c) ∧ (∀ c ∈ idw, isWordChar c)
      ∧ (∀ c ∈ w2, isSpaceChar c) := by
  intro body
  induction body with
  | nil => intro n h; simp [scanTypeBody] at h
  | cons c rest ih =>
    intro n h
    rw [scanTypeBody.eq_def] at h
    simp only at h
    by_cases hc : c = '\x7d'
    · rw [if_pos hc] at h
      cases ht : typeTailLen rest with
      | some t =>
        rw [ht, Option.some.injEq] at h
        subst h
        obtain ⟨w1, idw, w2, hsh, p1, p2, p3⟩ := typeTailLen_shape rest t ht
        subst hc
        refine ⟨[], w1, idw, w2, ?_, p1, p2, p3⟩
        rw [show 1 + t = t + 1 from by omega, List.take_succ_cons, hsh]
        rfl
      | none =>
        rw [ht] at h
        cases hs : scanTypeBody rest with
        | none => rw [hs] at h; exact absurd h (by simp)
        | some m =>
          rw [hs, Option.some.injEq] at h
          subst h
          obtain ⟨mid, w1, idw, w2, hsh, p1, p2, p3⟩ := ih m hs
          exact ⟨c :: mid, w1, idw, w2, by rw [List.take_succ_cons, hsh]; simp,
            p1, p2, p3⟩
    · rw [if_neg hc] at h
      cases hs : scanTypeBody rest with
      | none => rw [hs] at h; exact absurd h (by simp)
      | some m =>
        rw [hs, Option.some.injEq] at h
        subst h
        obtain ⟨mid, w1, idw, w2, hsh, p1, p2, p3⟩ := ih m hs
        exact ⟨c :: mid, w1, idw, w2, by rw [List.take_succ_cons, hsh]; simp,
          p1, p2, p3⟩

theorem kwLen_shape (l : List Char) (k : Nat) (h : kwLen l = some k) :
    l.take k = "struct".data ∨ l.take k = "enum".data ∨ l.take k = "union".data := by
  unfold kwLen at h
  split at h
  · rw [Option.some.injEq] at h
    subst h
    have hst := startsWithL_take "struct".data l (by assumption)
    rw [show ("struct".data).length = 6 from rfl] at hst
    exact Or.inl hst
  · split at h
    · rw [Option.some.injEq] at h
      subst h
      have hst := startsWithL_take "enum".data l (by assumption)
      rw [show ("enum".data).length = 4 from rfl] at hst
      exact Or.inr (Or.inl hst)
    · split at h
      · rw [Option.some.injEq] at h
        subst h
        have hst := startsWithL_take "union".data l (by assumption)
        rw [show ("union".data).length = 5 from rfl] at hst
        exact Or.inr (Or.inr hst)
      · exact absurd h (by simp)

theorem typeAfterPrefix_shape (l : List Char) (n : Nat)
    (h : typeAfterPrefix l = some n) :
    ∃ pre mid w1 idw w2,
      l.take n = pre ++ '\x7b' :: (mid ++ '\x7d' :: (w1 ++ (idw ++ (w2 ++ [';']))))
      ∧ '\x7b' ∉ pre
      ∧ (∀ c ∈ w1, isSpaceChar c) ∧ (∀ c ∈ idw, isWordChar c)
      ∧ (∀ c ∈ w2, isSpaceChar c) := by
  unfold typeAfterPrefix at h
  simp only at h
  split at h
  case h_1 => exact absurd h (by simp)
  case h_2 x k hk =>
    set s1 := runLength isSpaceChar (l.drop k) with hs1
    set tg := runLength isWordChar (l.drop (k + s1)) with htg
    set s2 := runLength isSpaceChar (l.drop (k + s1 + tg)) with hs2
    split at h
    case h_2 => exact absurd h (by simp)
    case h_1 y body heq =>
      cases hsb : scanTypeBody body with
      | none => rw [hsb] at h; exact absurd h (by simp)
      | some nb =>
        rw [hsb, Option.some.injEq] at h
        subst h
        obtain ⟨mid, w1, idw, w2, hshape, p1, p2, p3⟩ := scanTypeBody_shape body nb hsb
        refine ⟨l.take k ++ ((l.drop k).take s1 ++ ((l.drop (k + s1)).take tg
          ++ (l.drop (k + s1 + tg)).take s2)), mid, w1, idw, w2, ?_, ?_, p1, p2, p3⟩
        · have e1 : k + s1 + tg + s2 + 1 + nb = k + (s1 + (tg + (s2 + (1 + nb)))) := by
            omega
          rw [e1, List.take_add, List.take_add, List.take_add, List.take_add,
            List.drop_drop, List.drop_drop, List.drop_drop, heq,
            show 1 + nb = nb + 1 from by omega, List.take_succ_cons, hshape]
          simp [List.append_assoc]
        · intro hbr
          rcases List.mem_append.mp hbr with hbr | hbr
          · rcases kwLen_shape l k hk with hkw | hkw | hkw <;>
              (rw [hkw] at hbr; exact absurd hbr (by decide))
          · rcases List.mem_append.mp hbr with hbr | hbr
            · rw [hs1] at hbr
              exact absurd (take_runLength_all _ _ _ hbr) (by decide)
            · rcases List.mem_append.mp hbr with hbr | hbr
              · rw [htg] at hbr
                exact absurd (take_runLength_all _ _ _ hbr) (by decide)
              · rw [hs2] at hbr
                exact absurd (take_runLength_all _ _ _ hbr) (by decide)

theorem matchType_shape (l : List Char) (n : Nat) (h : matchType l = some n) :
    ∃ pre mid w1 idw w2,
      l.take n = pre ++ '\x7b' :: (mid ++ '\x7d' :: (w1 ++ (idw ++ (w2 ++ [';']))))
      ∧ '\x7b' ∉ pre
      ∧ (∀ c ∈ w1, isSpaceChar c) ∧ (∀ c ∈ idw, isWordChar c)
      ∧ (∀ c ∈ w2, isSpaceChar c) := by
  unfold matchType at h
  simp only at h
  by_cases htd : startsWithL "typedef".data l = true
  · rw [if_pos htd] at h
    set sp := runLength isSpaceChar (l.drop 7) with hsp
    by_cases hsp0 : sp = 0
    · rw [if_pos hsp0] at h
      exact typeAfterPrefix_shape l n h
    · rw [if_neg hsp0] at h
      cases hin : typeAfterPrefix (l.drop (7 + sp)) with
      | none => rw [hin] at h; exact typeAfterPrefix_shape l n h
      | some m =>
        rw [hin, Option.some.injEq] at h
        subst h
        obtain ⟨pre, mid, w1, idw, w2, hshape, hbr, p1, p2, p3⟩ :=
          typeAfterPrefix_shape _ m hin
        refine ⟨l.take 7 ++ ((l.drop 7).take sp ++ pre), mid, w1, idw, w2, ?_, ?_,
          p1, p2, p3⟩
        · have e1 : 7 + sp + m = 7 + (sp + m) := by omega
          rw [e1, List.take_add, List.take_add, List.drop_drop, hshape]
          simp [List.append_assoc]
        · intro hbr2
          rcases List.mem_append.mp hbr2 with hbr2 | hbr2
          · have h7 : l.take 7 = "typedef".data := startsWithL_take _ l htd
            rw [h7] at hbr2
            exact absurd hbr2 (by decide)
          · rcases List.mem_append.mp hbr2 with hbr2 | hbr2
            · rw [hsp] at hbr2
              exact absurd (take_runLength_all _ _ _ hbr2) (by decide)
            · exact hbr hbr2
  · rw [if_neg htd] at h
    exact typeAfterPrefix_shape l n h

theorem typeMatchesGo_mem (s : List Char) :
    ∀ (gas p : Nat) (pn : Nat × Nat), pn ∈ typeMatchesGo s gas p →
      matchType (s.drop pn.1) = some pn.2 := by
  intro gas
  induction gas with
  | zero => intro p pn h; simp [typeMatchesGo] at h
  | succ m ih =>
    intro p pn h
    rw [typeMatchesGo] at h
    split at h
    · simp at h
    · split at h
      · cases hm : matchType (s.drop p) with
        | some n =>
          simp only [hm] at h
          rcases List.mem_cons.mp h with rfl | h2
          · exact hm
          · exact ih _ pn h2
        | none =>
          simp only [hm] at h
          exact ih _ pn h
      · exact ih _ pn h

/-- Claim C8 (amended): every span captured by the aggregate-type
pattern opens at the declaration's own brace — no opening brace
precedes it within the span — but closes at the first closing brace
that is followed by optional whitespace, an optional alias identifier,
optional whitespace and a semicolon; with a nested brace body this can
be an inner closing brace, so the braces within the span need not
balance. -/
theorem type_span_shape (s : List Char) (pn : Nat × Nat) (h : pn ∈ typeMatches s) :
    ∃ pre mid w1 idw w2,
      (s.drop pn.1).take pn.2
        = pre ++ '\x7b' :: (mid ++ '\x7d' :: (w1 ++ (idw ++ (w2 ++ [';']))))
      ∧ '\x7b' ∉ pre
      ∧ (∀ c ∈ w1, isSpaceChar c) ∧ (∀ c ∈ idw, isWordChar c)
      ∧ (∀ c ∈ w2, isSpaceChar c) :=
  matchType_shape _ _ (typeMatchesGo_mem s _ 0 pn h)

/-- Counterexample for C8 as stated: in the nested example the captured
span contains two opening braces and a single closing brace, because
the reluctant scan stops at the inner closing brace whose tail looks
like an alias and a semicolon. -/
theorem type_span_brace_counterexample :
    (get_blocks contentNested).types = ["struct S \x7b struct T \x7bint x;\x7d t;"]
    ∧ ¬ (∀ t ∈ (get_blocks contentNested).types,
          t.data.count '\x7b' = t.data.count '\x7d') := by
  constructor
  · decide
  · decide

/-- Witness for the amended C8 at the nested example's captured span. -/
theorem type_span_shape_witness :
    ∃ pre mid w1 idw w2,
      ((stripAux contentNested.data).drop (0, 31).1).take (0, 31).2
        = pre ++ '\x7b' :: (mid ++ '\x7d' :: (w1 ++ (idw ++ (w2 ++ [';']))))
      ∧ '\x7b' ∉ pre
      ∧ (∀ c ∈ w1, isSpaceChar c) ∧ (∀ c ∈ idw, isWordChar c)
      ∧ (∀ c ∈ w2, isSpaceChar c) :=
  type_span_shape (stripAux contentNested.data) (0, 31) (by decide)

end FileDump
